import Mathlib

/-!
Verification development for the knee HR-pQCT autocontouring program
(`AutocontourKnee.py`).  The program computes a periosteal bone mask from a
grayscale volume using Gaussian smoothing, binary thresholding, connected
component selection, binary inversion and morphological operations built on
the SimpleITK imaging primitives.

Shallow embedding conventions:
* a volume is a total function from grid positions to integer intensities
  (HU values and mask labels are integers in the program's usage);
* positions are flat indices `Fin (nx*ny*nz)` with x varying fastest, which
  is exactly ITK's raster order; coordinates are recovered by div/mod;
* the Gaussian smoothing primitive (`sitk.DiscreteGaussian`) is an external
  floating-point filter; it is kept as an abstract parameter `G` with the
  same argument list as in the source (sigma, support, maxError, useSpacing);
  every theorem quantifies over it;
* `sitk.BinaryThreshold`, `sitk.BinaryDilate`, `sitk.BinaryErode`,
  `sitk.Mask`, `sitk.BinaryMorphologicalOpening/Closing`,
  `sitk.ConnectedComponent` + `sitk.RelabelComponent` are modelled from
  their documented contracts:
  - `ConnectedComponent` is called with its default `fullyConnected=False`,
    which is face (6-) connectivity in 3-D; foreground is every non-zero
    voxel;
  - `RelabelComponent(sortByObjectSize=True)` sorts labels by size
    descending, stably, and the original labels are assigned in raster
    order of each component's first voxel, so label 1 is the component of
    maximal size whose raster-first voxel is smallest;
  - `BinaryDilate` treats out-of-volume neighbours as background (its
    default `boundaryToForeground=False`); `BinaryErode` treats them as
    foreground (default `boundaryToForeground=True`); the `sitkBall`
    structuring element of radius `r` contains the offsets whose Euclidean
    norm is at most `r`.
-/

/-- Dimensions of a 3-D voxel grid. -/
structure Dims where
  nx : Nat
  ny : Nat
  nz : Nat

/-- Total number of voxels of a grid. -/
def Dims.size (d : Dims) : Nat := d.nx * d.ny * d.nz

/-- A voxel position, as a flat raster index (x fastest, then y, then z),
exactly ITK's memory order. -/
abbrev Pos (d : Dims) := Fin d.size

/-- A volume: integer intensity at every voxel. -/
abbrev Vol (d : Dims) := Pos d → Int

/-- The x coordinate of a position. -/
def px {d : Dims} (p : Pos d) : Nat := p.val % d.nx

/-- The y coordinate of a position. -/
def py {d : Dims} (p : Pos d) : Nat := (p.val / d.nx) % d.ny

/-- The z coordinate of a position. -/
def pz {d : Dims} (p : Pos d) : Nat := p.val / (d.nx * d.ny)

/-- Face (6-) adjacency of two voxels: the coordinate distances sum to 1.
This is what `sitk.ConnectedComponent` uses with its default
`fullyConnected=False`. -/
abbrev adj6 {d : Dims} (p q : Pos d) : Prop :=
  Nat.dist (px p) (px q) + Nat.dist (py p) (py q) + Nat.dist (pz p) (pz q) = 1

/-- Full (26-) adjacency of two voxels: distinct, and every coordinate
distance is at most 1.  The specification describes component labelling with
this adjacency. -/
abbrev adj26 {d : Dims} (p q : Pos d) : Prop :=
  p ≠ q ∧ Nat.dist (px p) (px q) ≤ 1 ∧ Nat.dist (py p) (py q) ≤ 1 ∧
    Nat.dist (pz p) (pz q) ≤ 1

/-- Membership of `q` in the Euclidean ball of radius `r` centred at `p`:
the `sitkBall` structuring element placed at `p`.  Only in-volume voxels are
represented, which encodes the boundary conventions described above. -/
abbrev inBall {d : Dims} (r : Nat) (p q : Pos d) : Prop :=
  ((px p : Int) - px q) ^ 2 + ((py p : Int) - py q) ^ 2 +
    ((pz p : Int) - pz q) ^ 2 ≤ (r : Int) ^ 2

/-- Foreground of a volume in the sense of `sitk.ConnectedComponent` and
`sitk.Mask`: the set of voxels with a non-zero value. -/
def fgSet {d : Dims} (v : Vol d) : Finset (Pos d) :=
  Finset.univ.filter fun p => v p ≠ 0

section Reach

variable {α : Type} [DecidableEq α] [Fintype α]
variable (A : α → α → Prop) [DecidableRel A]

/-- One step of connected-component growth inside foreground `F`: add to `S`
every voxel of `F` adjacent to `S`. -/
def grow (F S : Finset α) : Finset α :=
  S ∪ F.filter fun q => ∃ p ∈ S, A p q

/-- The connected component (under adjacency `A`) of `p` inside the
foreground set `F`: the stable closure of `{p}` under `grow`, or `∅` when
`p` is not foreground.  Iterating `Fintype.card α` times reaches the fixed
point. -/
def componentOf (F : Finset α) (p : α) : Finset α :=
  if p ∈ F then (grow A F)^[Fintype.card α] {p} else ∅

/-- Reachability within foreground `F`: a path of `A`-steps staying in `F`. -/
def Reaches (F : Finset α) (p q : α) : Prop :=
  Relation.ReflTransGen (fun a b => b ∈ F ∧ A a b) p q

/-- The set of connected components of foreground `F`. -/
def comps (F : Finset α) : Finset (Finset α) :=
  F.image (componentOf A F)

/-- Foreground voxels whose component has maximal size. -/
def candidates (F : Finset α) : Finset α :=
  F.filter fun p => ∀ q ∈ F, (componentOf A F q).card ≤ (componentOf A F p).card

/-- The component kept by `sitk.ConnectedComponent` +
`RelabelComponent(sortByObjectSize=True)` + selection of label 1: the
component of maximal size, ties resolved by the smallest raster-first voxel
(ITK assigns original labels in raster order and the relabelling sort is
stable).  Empty when the foreground is empty. -/
def largestComponentSet [LinearOrder α] (F : Finset α) : Finset α :=
  if h : F.Nonempty then
    componentOf A F ((candidates A F).min' (by
      obtain ⟨b, hb, hmax⟩ :=
        Finset.exists_max_image F (fun p => (componentOf A F p).card) h
      exact ⟨b, Finset.mem_filter.mpr ⟨hb, hmax⟩⟩))
  else ∅

end Reach

/-- Configuration of the autocontouring pipeline: the attributes stored by
`AutocontourKnee.__init__` (source lines 68-195).  The background label
`out_value` is not a parameter: the source hardcodes `self.out_value = 0`
with the comment "this should only be zero"; it is the definition
`AutocontourKnee.out_value` below. -/
structure AutocontourKnee where
  in_value : Int
  peri_s1_sigma : Rat
  peri_s1_support : Int
  peri_s1_lower : Int
  peri_s1_upper : Int
  peri_s1_radius : Nat
  peri_s2_sigma : Rat
  peri_s2_support : Int
  peri_s2_lower : Int
  peri_s2_upper : Int
  peri_s2_radius : Nat
  peri_s3_sigma : Rat
  peri_s3_support : Int
  peri_s3_lower : Int
  peri_s3_upper : Int
  peri_s3_radius : Nat
  peri_s4_open_radius : Nat
  peri_s4_close_radius : Nat
  DEFAULT_MAX_ERROR : Rat
  USE_SPACING : Bool

/-- The background label: fixed at 0 (source line 171, `self.out_value = 0`,
"this should only be zero"). -/
def AutocontourKnee.out_value (_ : AutocontourKnee) : Int := 0

/-- The constructor `AutocontourKnee.__init__` (source lines 68-195): it
stores every parameter as given and fixes `DEFAULT_MAX_ERROR = 0.01` and
`USE_SPACING = False`.  It performs no validation of any kind. -/
def AutocontourKnee.init
    (in_value : Int)
    (s1_sigma : Rat) (s1_support s1_lower s1_upper : Int) (s1_radius : Nat)
    (s2_sigma : Rat) (s2_support s2_lower s2_upper : Int) (s2_radius : Nat)
    (s3_sigma : Rat) (s3_support s3_lower s3_upper : Int) (s3_radius : Nat)
    (s4_open_radius s4_close_radius : Nat) : AutocontourKnee :=
  ⟨in_value,
   s1_sigma, s1_support, s1_lower, s1_upper, s1_radius,
   s2_sigma, s2_support, s2_lower, s2_upper, s2_radius,
   s3_sigma, s3_support, s3_lower, s3_upper, s3_radius,
   s4_open_radius, s4_close_radius,
   1 / 100, false⟩

/-- The default parameter values of `AutocontourKnee.__init__`
(source lines 70-87). -/
def default_config : AutocontourKnee :=
  AutocontourKnee.init 127
    (3 / 2) 1 400 10000 35
    (3 / 2) 1 350 10000 10
    (3 / 2) 1 500 10000 5
    8 16

/-- A configuration with the default parameters except that the stage-1
threshold band is `[lo, hi]`; used to examine construction with an invalid
band. -/
def cfgBand (lo hi : Int) : AutocontourKnee :=
  AutocontourKnee.init 127
    (3 / 2) 1 lo hi 35
    (3 / 2) 1 350 10000 10
    (3 / 2) 1 500 10000 5
    8 16

/-- The two-value mask invariant: every voxel is `IN_VALUE` or
`OUT_VALUE = 0`. -/
abbrev twoValued (cfg : AutocontourKnee) {d : Dims} (v : Vol d) : Prop :=
  ∀ p, v p = cfg.in_value ∨ v p = 0

/-- Signature of the external Gaussian smoothing primitive
`sitk.DiscreteGaussian(img, sigma, support, maxError, useSpacing)` (source
line 229): kept abstract, every theorem quantifies over it. -/
def GaussFn (d : Dims) := Rat → Int → Rat → Bool → Vol d → Vol d

/-- The external primitive `sitk.BinaryThreshold(img, lower, upper,
in_value, out_value)` (source line 232): voxels whose value lies in
`[lower, upper]` become `IN_VALUE`, all others `OUT_VALUE`. -/
def binaryThreshold (cfg : AutocontourKnee) {d : Dims} (v : Vol d)
    (lower upper : Int) : Vol d :=
  fun p => if lower ≤ v p ∧ v p ≤ upper then cfg.in_value else cfg.out_value

/-- The external primitive `sitk.BinaryDilate(img, [r]*3, sitkBall,
out_value, in_value)`: a voxel within distance `r` of a foreground voxel
becomes foreground; other voxels keep their input value.  Out-of-volume
neighbours count as background (default `boundaryToForeground=False`). -/
def binaryDilate (cfg : AutocontourKnee) {d : Dims} (r : Nat) (v : Vol d) :
    Vol d :=
  fun p => if ∃ q, inBall r p q ∧ v q = cfg.in_value then cfg.in_value else v p

/-- The external primitive `sitk.BinaryErode(img, [r]*3, sitkBall,
out_value, in_value)`: a foreground voxel with a non-foreground voxel within
distance `r` becomes background; other voxels keep their input value.
Out-of-volume neighbours count as foreground (default
`boundaryToForeground=True`), so they never cause erosion. -/
def binaryErode (cfg : AutocontourKnee) {d : Dims} (r : Nat) (v : Vol d) :
    Vol d :=
  fun p =>
    if v p = cfg.in_value ∧ ∃ q, inBall r p q ∧ v q ≠ cfg.in_value then
      cfg.out_value
    else v p

/-- The external primitive `sitk.BinaryMorphologicalOpening` (source lines
422-425): erosion followed by dilation with the same ball. -/
def binaryMorphologicalOpening (cfg : AutocontourKnee) {d : Dims} (r : Nat)
    (v : Vol d) : Vol d :=
  binaryDilate cfg r (binaryErode cfg r v)

/-- The external primitive `sitk.BinaryMorphologicalClosing` (source lines
439-442): dilation followed by erosion with the same ball. -/
def binaryMorphologicalClosing (cfg : AutocontourKnee) {d : Dims} (r : Nat)
    (v : Vol d) : Vol d :=
  binaryErode cfg r (binaryDilate cfg r v)

/-- The external primitive `sitk.Mask(img, mask)` with its default masking
value 0 and outside value 0: keep `img` where `mask` is non-zero, zero
elsewhere. -/
def maskOp {d : Dims} (img mask : Vol d) : Vol d :=
  fun p => if mask p ≠ 0 then img p else 0

/-- Method `_gaussian_and_threshold(img, sigma, support, lower, upper)`
(source lines 197-234): Gaussian smoothing with the instance constants
`DEFAULT_MAX_ERROR` and `USE_SPACING`, then binary thresholding with the
instance labels.  No parameter validation is performed. -/
def gaussian_and_threshold (cfg : AutocontourKnee) {d : Dims} (G : GaussFn d)
    (img : Vol d) (sigma : Rat) (support : Int) (lower upper : Int) : Vol d :=
  binaryThreshold cfg (G sigma support cfg.DEFAULT_MAX_ERROR cfg.USE_SPACING img)
    lower upper

/-- Method `_get_largest_connected_component(img)` (source lines 236-256):
`sitk.ConnectedComponent` (6-connectivity, foreground = non-zero) followed by
`sitk.RelabelComponent(sortByObjectSize=True)` and selection of label 1,
scaled by `in_value`. -/
def get_largest_connected_component (cfg : AutocontourKnee) {d : Dims}
    (v : Vol d) : Vol d :=
  fun p =>
    cfg.in_value * (if p ∈ largestComponentSet adj6 (fgSet v) then 1 else 0)

/-- Method `_invert_binary_image(img)` (source lines 258-273): the
expression `in_value*(img != in_value)`.  No invariant check is performed. -/
def invert_binary_image (cfg : AutocontourKnee) {d : Dims} (v : Vol d) :
    Vol d :=
  fun p => cfg.in_value * (if v p ≠ cfg.in_value then 1 else 0)

/-- Method `_close_with_connected_components(img, radius)` (source lines
275-317): dilate, invert, keep the largest background component, invert
back, erode. -/
def close_with_connected_components (cfg : AutocontourKnee) {d : Dims}
    (v : Vol d) (radius : Nat) : Vol d :=
  let dilated := binaryDilate cfg radius v
  let inverted := invert_binary_image cfg dilated
  let background := get_largest_connected_component cfg inverted
  let reinverted := invert_binary_image cfg background
  binaryErode cfg radius reinverted

/-- Stage 1 of `get_periosteal_mask` (source lines 336-365): threshold,
largest component, dilate by `peri_s1_radius`, invert, largest background
component, invert back.  The result is the coarse mask `s1`. -/
def peri_stage1 (cfg : AutocontourKnee) {d : Dims} (G : GaussFn d)
    (img : Vol d) : Vol d :=
  let seg1 := gaussian_and_threshold cfg G img cfg.peri_s1_sigma
    cfg.peri_s1_support cfg.peri_s1_lower cfg.peri_s1_upper
  let seg2 := get_largest_connected_component cfg seg1
  let seg3 := binaryDilate cfg cfg.peri_s1_radius seg2
  let seg4 := invert_binary_image cfg seg3
  let seg5 := get_largest_connected_component cfg seg4
  invert_binary_image cfg seg5

/-- Method `get_periosteal_mask(img)` (source lines 319-448), transcribed
line by line; the `let` bindings mirror the successive reassignments of
`img_segmented` / `img_masked` in the source. -/
def get_periosteal_mask (cfg : AutocontourKnee) {d : Dims} (G : GaussFn d)
    (img : Vol d) : Vol d :=
  -- STEP 1 (lines 336-371)
  let img_segmented_s1 := peri_stage1 cfg G img
  let img_masked := maskOp img img_segmented_s1
  -- STEP 2 (lines 373-393)
  let s2_thresh := gaussian_and_threshold cfg G img_masked cfg.peri_s2_sigma
    cfg.peri_s2_support cfg.peri_s2_lower cfg.peri_s2_upper
  let s2_largest := get_largest_connected_component cfg s2_thresh
  let img_segmented_s2 :=
    close_with_connected_components cfg s2_largest cfg.peri_s2_radius
  let img_masked2 := maskOp img img_segmented_s2
  -- STEP 3 (lines 395-412)
  let s3_thresh := gaussian_and_threshold cfg G img_masked2 cfg.peri_s3_sigma
    cfg.peri_s3_support cfg.peri_s3_lower cfg.peri_s3_upper
  let img_segmented_s3 :=
    close_with_connected_components cfg s3_thresh cfg.peri_s3_radius
  let _img_masked3 := maskOp img img_segmented_s3
  -- STEP 4 (lines 415-448)
  let img_segmented_diff := fun p => cfg.in_value *
    (if ¬((img_segmented_s2 p = cfg.in_value) ↔
          (img_segmented_s3 p = cfg.in_value)) then 1 else 0)
  let img_segmented_diff_open :=
    binaryMorphologicalOpening cfg cfg.peri_s4_open_radius img_segmented_diff
  let peri_mask := fun p => cfg.in_value *
    (if img_segmented_s3 p = cfg.in_value ∨
        img_segmented_diff_open p = cfg.in_value then 1 else 0)
  let peri_mask_closed :=
    binaryMorphologicalClosing cfg cfg.peri_s4_close_radius peri_mask
  maskOp peri_mask_closed img_segmented_s1

/-- Variant of `get_periosteal_mask` whose only difference is that the
stage-3 re-mask of the original volume (source line 409, the value bound to
`_img_masked3` above, never read afterwards) is omitted. -/
def get_periosteal_mask_no_stage3_remask (cfg : AutocontourKnee) {d : Dims}
    (G : GaussFn d) (img : Vol d) : Vol d :=
  let img_segmented_s1 := peri_stage1 cfg G img
  let img_masked := maskOp img img_segmented_s1
  let s2_thresh := gaussian_and_threshold cfg G img_masked cfg.peri_s2_sigma
    cfg.peri_s2_support cfg.peri_s2_lower cfg.peri_s2_upper
  let s2_largest := get_largest_connected_component cfg s2_thresh
  let img_segmented_s2 :=
    close_with_connected_components cfg s2_largest cfg.peri_s2_radius
  let img_masked2 := maskOp img img_segmented_s2
  let s3_thresh := gaussian_and_threshold cfg G img_masked2 cfg.peri_s3_sigma
    cfg.peri_s3_support cfg.peri_s3_lower cfg.peri_s3_upper
  let img_segmented_s3 :=
    close_with_connected_components cfg s3_thresh cfg.peri_s3_radius
  let img_segmented_diff := fun p => cfg.in_value *
    (if ¬((img_segmented_s2 p = cfg.in_value) ↔
          (img_segmented_s3 p = cfg.in_value)) then 1 else 0)
  let img_segmented_diff_open :=
    binaryMorphologicalOpening cfg cfg.peri_s4_open_radius img_segmented_diff
  let peri_mask := fun p => cfg.in_value *
    (if img_segmented_s3 p = cfg.in_value ∨
        img_segmented_diff_open p = cfg.in_value then 1 else 0)
  let peri_mask_closed :=
    binaryMorphologicalClosing cfg cfg.peri_s4_close_radius peri_mask
  maskOp peri_mask_closed img_segmented_s1

/-- Method `get_endosteal_mask(img, peri)` (source lines 451-470): the body
is `pass`, so the call returns Python's `None` (modelled as `none`) and
raises nothing. -/
def get_endosteal_mask (_cfg : AutocontourKnee) {d : Dims}
    (_img _peri : Vol d) : Option (Vol d) := none

/-- Method `get_masks(img)` (source lines 472-489): the body is `pass`, so
the call returns Python's `None` (modelled as `none`) and raises nothing. -/
def get_masks (_cfg : AutocontourKnee) {d : Dims} (_img : Vol d) :
    Option (Vol d × Vol d) := none

/-! Concrete fixtures used by witnesses and counterexamples. -/

/-- A 2 x 2 x 1 grid. -/
def dW : Dims := ⟨2, 2, 1⟩

/-- A 1 x 1 x 1 grid. -/
def d1 : Dims := ⟨1, 1, 1⟩

/-- An identity stand-in for the abstract Gaussian primitive. -/
def GW : GaussFn dW := fun _ _ _ _ v => v

/-- A mask on the 2 x 2 x 1 grid with a single foreground voxel at index 0. -/
def mSingle : Vol dW := fun p => if p.val = 0 then 127 else 0

/-- A mask on the 2 x 2 x 1 grid whose foreground is the two face-adjacent
voxels 0 and 1. -/
def mPair : Vol dW := fun p => if p.val = 0 ∨ p.val = 1 then 127 else 0

/-- A mask on the 2 x 2 x 1 grid whose foreground is the two diagonal
voxels 0 = (0,0,0) and 3 = (1,1,0): 26-adjacent but not 6-adjacent. -/
def mDiag : Vol dW := fun p => if p.val = 0 ∨ p.val = 3 then 127 else 0

/-- The all-background volume on the 2 x 2 x 1 grid. -/
def mEmpty : Vol dW := fun _ => 0

/-- A volume violating the two-value invariant: constant value 5. -/
def badV : Vol d1 := fun _ => 5

/-! Helper lemmas about connected-component growth. -/

section ReachLemmas

variable {α : Type} [DecidableEq α] [Fintype α]
variable {A : α → α → Prop} [DecidableRel A]

theorem mem_grow {F S : Finset α} {x : α} :
    x ∈ grow A F S ↔ x ∈ S ∨ (x ∈ F ∧ ∃ p ∈ S, A p x) := by
  unfold grow
  rw [Finset.mem_union, Finset.mem_filter]

theorem subset_grow (F S : Finset α) : S ⊆ grow A F S :=
  Finset.subset_union_left

theorem iterate_grow_subset {F S : Finset α} (h : S ⊆ F) (k : Nat) :
    (grow A F)^[k] S ⊆ F := by
  induction k with
  | zero => simpa using h
  | succ k ih =>
    rw [Function.iterate_succ_apply']
    intro x hx
    rcases mem_grow.mp hx with h1 | h2
    · exact ih h1
    · exact h2.1

theorem subset_iterate_grow (F S : Finset α) (k : Nat) :
    S ⊆ (grow A F)^[k] S := by
  induction k with
  | zero => simp
  | succ k ih =>
    rw [Function.iterate_succ_apply']
    exact ih.trans (subset_grow F _)

theorem iterate_grow_fixed {F S : Finset α} (h : grow A F S = S) (k : Nat) :
    (grow A F)^[k] S = S := by
  induction k with
  | zero => rfl
  | succ k ih => rw [Function.iterate_succ_apply', ih, h]

theorem iterate_grow_fix_propagate {F S : Finset α} {j k : Nat}
    (h : grow A F ((grow A F)^[j] S) = (grow A F)^[j] S) (hjk : j ≤ k) :
    (grow A F)^[k] S = (grow A F)^[j] S := by
  obtain ⟨m, rfl⟩ := Nat.exists_eq_add_of_le hjk
  rw [Nat.add_comm, Function.iterate_add_apply]
  exact iterate_grow_fixed h m

theorem card_iterate_grow_of_no_fix {F S : Finset α} {k : Nat}
    (h : ∀ j < k, (grow A F)^[j + 1] S ≠ (grow A F)^[j] S) :
    S.card + k ≤ (((grow A F)^[k]) S).card := by
  induction k with
  | zero => simp
  | succ k ih =>
    have hle := ih fun j hj => h j (Nat.lt_succ_of_lt hj)
    have hsub : (grow A F)^[k] S ⊆ (grow A F)^[k + 1] S := by
      rw [Function.iterate_succ_apply']
      exact subset_grow F _
    have hne : (grow A F)^[k + 1] S ≠ (grow A F)^[k] S := h k (Nat.lt_succ_self k)
    have hlt : ((grow A F)^[k] S).card < ((grow A F)^[k + 1] S).card :=
      Finset.card_lt_card
        (Finset.ssubset_iff_subset_ne.mpr ⟨hsub, fun e => hne e.symm⟩)
    omega

theorem grow_componentOf_fix (F : Finset α) (p : α) :
    grow A F (componentOf A F p) = componentOf A F p := by
  unfold componentOf
  by_cases hp : p ∈ F
  · simp only [if_pos hp]
    by_contra hne
    have hnofix : ∀ j < Fintype.card α + 1,
        (grow A F)^[j + 1] ({p} : Finset α) ≠ (grow A F)^[j] ({p} : Finset α) := by
      intro j hj heq
      have hfix : grow A F ((grow A F)^[j] ({p} : Finset α)) =
          (grow A F)^[j] ({p} : Finset α) := by
        rw [Function.iterate_succ_apply'] at heq
        exact heq
      have hNj := iterate_grow_fix_propagate hfix (Nat.lt_succ_iff.mp hj)
      exact hne (by rw [hNj, hfix, ← hNj])
    have hcard := card_iterate_grow_of_no_fix hnofix
    have hle : (((grow A F)^[Fintype.card α + 1]) ({p} : Finset α)).card ≤
        Fintype.card α := Finset.card_le_univ _
    have h1 : ({p} : Finset α).card = 1 := Finset.card_singleton p
    omega
  · simp only [if_neg hp]
    unfold grow
    simp

theorem componentOf_subset (F : Finset α) (p : α) :
    componentOf A F p ⊆ F := by
  unfold componentOf
  by_cases hp : p ∈ F
  · simp only [if_pos hp]
    exact iterate_grow_subset (Finset.singleton_subset_iff.mpr hp) _
  · simp only [if_neg hp]
    exact Finset.empty_subset F

theorem mem_componentOf_self {F : Finset α} {p : α} (hp : p ∈ F) :
    p ∈ componentOf A F p := by
  unfold componentOf
  simp only [if_pos hp]
  exact subset_iterate_grow F {p} _ (Finset.mem_singleton_self p)

theorem componentOf_closed {F : Finset α} {p q r : α}
    (hq : q ∈ componentOf A F p) (hrF : r ∈ F) (hA : A q r) :
    r ∈ componentOf A F p := by
  rw [← grow_componentOf_fix F p]
  exact mem_grow.mpr (Or.inr ⟨hrF, q, hq, hA⟩)

theorem reaches_of_mem_iterate {F : Finset α} {p : α} (k : Nat) :
    ∀ q, q ∈ (grow A F)^[k] ({p} : Finset α) → Reaches A F p q := by
  induction k with
  | zero =>
    intro q hq
    rw [Function.iterate_zero_apply, Finset.mem_singleton] at hq
    exact hq ▸ Relation.ReflTransGen.refl
  | succ k ih =>
    intro q hq
    rw [Function.iterate_succ_apply'] at hq
    rcases mem_grow.mp hq with h1 | ⟨hqF, a, ha, hA⟩
    · exact ih q h1
    · exact (ih a ha).tail ⟨hqF, hA⟩

theorem mem_componentOf_iff {F : Finset α} {p q : α} (hp : p ∈ F) :
    q ∈ componentOf A F p ↔ Reaches A F p q := by
  constructor
  · intro hq
    unfold componentOf at hq
    rw [if_pos hp] at hq
    exact reaches_of_mem_iterate _ q hq
  · intro hr
    induction hr with
    | refl => exact mem_componentOf_self hp
    | tail _hb hstep ih => exact componentOf_closed ih hstep.1 hstep.2

theorem mem_of_reaches {F : Finset α} {p q : α} (h : Reaches A F p q)
    (hp : p ∈ F) : q ∈ F := by
  induction h with
  | refl => exact hp
  | tail _hb hstep _ih => exact hstep.1

theorem reaches_symm (hA : ∀ a b, A a b → A b a) {F : Finset α} {p q : α}
    (hp : p ∈ F) (h : Reaches A F p q) : Reaches A F q p := by
  induction h with
  | refl => exact Relation.ReflTransGen.refl
  | tail hb hstep ih =>
    exact Relation.ReflTransGen.head ⟨mem_of_reaches hb hp, hA _ _ hstep.2⟩ ih

theorem componentOf_eq_of_mem (hA : ∀ a b, A a b → A b a) {F : Finset α}
    {p q : α} (hq : q ∈ componentOf A F p) :
    componentOf A F q = componentOf A F p := by
  have hp : p ∈ F := by
    by_contra hp
    rw [componentOf, if_neg hp] at hq
    exact absurd hq (Finset.not_mem_empty q)
  have hqF : q ∈ F := componentOf_subset F p hq
  have hpq : Reaches A F p q := (mem_componentOf_iff hp).mp hq
  ext x
  rw [mem_componentOf_iff hqF, mem_componentOf_iff hp]
  constructor
  · exact fun h => hpq.trans h
  · exact fun h => (reaches_symm hA hp hpq).trans h

end ReachLemmas

section ComponentLemmas

variable {α : Type} [DecidableEq α] [Fintype α]
variable {A : α → α → Prop} [DecidableRel A]

theorem reaches_within_component {F : Finset α} {p q x : α}
    (hq : q ∈ componentOf A F p) (h : Reaches A F q x) :
    Reaches A (componentOf A F p) q x := by
  induction h with
  | refl => exact Relation.ReflTransGen.refl
  | tail _hb hstep ih =>
    have hbC := mem_of_reaches ih hq
    exact ih.tail ⟨componentOf_closed hbC hstep.1 hstep.2, hstep.2⟩

theorem componentOf_within (hA : ∀ a b, A a b → A b a) {F : Finset α}
    {p q : α} (hq : q ∈ componentOf A F p) :
    componentOf A (componentOf A F p) q = componentOf A F p := by
  have hqF : q ∈ F := componentOf_subset F p hq
  have hCq : componentOf A F q = componentOf A F p := componentOf_eq_of_mem hA hq
  ext x
  rw [mem_componentOf_iff hq]
  constructor
  · intro hr
    have hFx : Reaches A F q x :=
      hr.mono fun a b hab => ⟨componentOf_subset F p hab.1, hab.2⟩
    rw [← hCq]
    exact (mem_componentOf_iff hqF).mpr hFx
  · intro hx
    have hFx : Reaches A F q x := by
      rw [← hCq] at hx
      exact (mem_componentOf_iff hqF).mp hx
    exact reaches_within_component hq hFx

theorem comps_componentOf_card_le_one (hA : ∀ a b, A a b → A b a)
    (F : Finset α) (p : α) : (comps A (componentOf A F p)).card ≤ 1 := by
  apply Finset.card_le_one.mpr
  intro a ha b hb
  rw [comps, Finset.mem_image] at ha hb
  obtain ⟨qa, hqa, rfl⟩ := ha
  obtain ⟨qb, hqb, rfl⟩ := hb
  rw [componentOf_within hA hqa, componentOf_within hA hqb]

theorem comps_empty : comps A (∅ : Finset α) = ∅ := by
  unfold comps
  exact Finset.image_empty _

theorem largestComponentSet_subset [LinearOrder α] (F : Finset α) :
    largestComponentSet A F ⊆ F := by
  unfold largestComponentSet
  by_cases h : F.Nonempty
  · rw [dif_pos h]
    exact componentOf_subset F _
  · rw [dif_neg h]
    exact Finset.empty_subset F

theorem largestComponentSet_spec [LinearOrder α] {F : Finset α}
    (h : F.Nonempty) :
    ∃ p ∈ F, largestComponentSet A F = componentOf A F p ∧
      ∀ q ∈ F, (componentOf A F q).card ≤ (componentOf A F p).card := by
  unfold largestComponentSet
  rw [dif_pos h]
  have hmem := Finset.min'_mem (candidates A F) (by
    obtain ⟨b, hb, hmax⟩ :=
      Finset.exists_max_image F (fun p => (componentOf A F p).card) h
    exact ⟨b, Finset.mem_filter.mpr ⟨hb, hmax⟩⟩)
  unfold candidates at hmem
  rw [Finset.mem_filter] at hmem
  exact ⟨_, hmem.1, rfl, hmem.2⟩

theorem largestComponentSet_of_empty [LinearOrder α] {F : Finset α}
    (h : ¬F.Nonempty) : largestComponentSet A F = ∅ := by
  unfold largestComponentSet
  rw [dif_neg h]

end ComponentLemmas

/-! Basic geometric and mask-level helper lemmas. -/

theorem adj6_symm {d : Dims} (p q : Pos d) (h : adj6 p q) : adj6 q p := by
  unfold adj6 at h ⊢
  rw [Nat.dist_comm (px q) (px p), Nat.dist_comm (py q) (py p),
    Nat.dist_comm (pz q) (pz p)]
  exact h

theorem inBall_refl {d : Dims} (r : Nat) (p : Pos d) : inBall r p p := by
  unfold inBall
  simp only [sub_self]
  positivity

theorem inBall_symm {d : Dims} {r : Nat} {p q : Pos d} (h : inBall r p q) :
    inBall r q p := by
  unfold inBall at h ⊢
  have e1 : ((px q : Int) - px p) ^ 2 = ((px p : Int) - px q) ^ 2 := by ring
  have e2 : ((py q : Int) - py p) ^ 2 = ((py p : Int) - py q) ^ 2 := by ring
  have e3 : ((pz q : Int) - pz p) ^ 2 = ((pz p : Int) - pz q) ^ 2 := by ring
  rw [e1, e2, e3]
  exact h

theorem mem_fgSet {d : Dims} {v : Vol d} {p : Pos d} :
    p ∈ fgSet v ↔ v p ≠ 0 := by
  unfold fgSet
  rw [Finset.mem_filter]
  simp

theorem twoValued_invert (cfg : AutocontourKnee) {d : Dims} (v : Vol d) :
    twoValued cfg (invert_binary_image cfg v) := by
  intro p
  by_cases h : v p ≠ cfg.in_value <;> simp [invert_binary_image, h]

theorem twoValued_largest (cfg : AutocontourKnee) {d : Dims} (v : Vol d) :
    twoValued cfg (get_largest_connected_component cfg v) := by
  intro p
  by_cases h : p ∈ largestComponentSet adj6 (fgSet v) <;>
    simp [get_largest_connected_component, h]

theorem twoValued_threshold (cfg : AutocontourKnee) {d : Dims} (v : Vol d)
    (lower upper : Int) : twoValued cfg (binaryThreshold cfg v lower upper) := by
  intro p
  by_cases h : lower ≤ v p ∧ v p ≤ upper <;>
    simp [binaryThreshold, AutocontourKnee.out_value, h]

theorem twoValued_dilate (cfg : AutocontourKnee) {d : Dims} {v : Vol d}
    (hv : twoValued cfg v) (r : Nat) : twoValued cfg (binaryDilate cfg r v) := by
  intro p
  unfold binaryDilate
  by_cases h : ∃ q, inBall r p q ∧ v q = cfg.in_value
  · rw [if_pos h]
    exact Or.inl rfl
  · rw [if_neg h]
    exact hv p

theorem twoValued_erode (cfg : AutocontourKnee) {d : Dims} {v : Vol d}
    (hv : twoValued cfg v) (r : Nat) : twoValued cfg (binaryErode cfg r v) := by
  intro p
  unfold binaryErode
  by_cases h : v p = cfg.in_value ∧ ∃ q, inBall r p q ∧ v q ≠ cfg.in_value
  · rw [if_pos h]
    exact Or.inr rfl
  · rw [if_neg h]
    exact hv p

theorem twoValued_opening (cfg : AutocontourKnee) {d : Dims} {v : Vol d}
    (hv : twoValued cfg v) (r : Nat) :
    twoValued cfg (binaryMorphologicalOpening cfg r v) :=
  twoValued_dilate cfg (twoValued_erode cfg hv r) r

theorem twoValued_closing (cfg : AutocontourKnee) {d : Dims} {v : Vol d}
    (hv : twoValued cfg v) (r : Nat) :
    twoValued cfg (binaryMorphologicalClosing cfg r v) :=
  twoValued_erode cfg (twoValued_dilate cfg hv r) r

theorem twoValued_maskOp (cfg : AutocontourKnee) {d : Dims} {a : Vol d}
    (ha : twoValued cfg a) (b : Vol d) : twoValued cfg (maskOp a b) := by
  intro p
  unfold maskOp
  by_cases h : b p ≠ 0
  · rw [if_pos h]
    exact ha p
  · rw [if_neg h]
    exact Or.inr rfl

theorem twoValued_close (cfg : AutocontourKnee) {d : Dims} (v : Vol d)
    (r : Nat) : twoValued cfg (close_with_connected_components cfg v r) :=
  twoValued_erode cfg (twoValued_invert cfg _) r

theorem fgSet_maskOp_subset {d : Dims} (a b : Vol d) :
    fgSet (maskOp a b) ⊆ fgSet b := by
  intro p hp
  rw [mem_fgSet] at hp ⊢
  unfold maskOp at hp
  by_cases h : b p ≠ 0
  · exact h
  · rw [if_neg h] at hp
    exact absurd rfl hp

theorem fgSet_largest_of_ne (cfg : AutocontourKnee) {d : Dims} (v : Vol d)
    (hin : cfg.in_value ≠ 0) :
    fgSet (get_largest_connected_component cfg v) =
      largestComponentSet adj6 (fgSet v) := by
  ext p
  rw [mem_fgSet]
  unfold get_largest_connected_component
  by_cases h : p ∈ largestComponentSet adj6 (fgSet v) <;> simp [h, hin]

theorem twoValued_scale_ite (cfg : AutocontourKnee) {d : Dims}
    (Q : Pos d → Prop) [DecidablePred Q] :
    twoValued cfg (fun p => cfg.in_value * (if Q p then 1 else 0)) := by
  intro p
  by_cases h : Q p <;> simp [h]

/-- C1: every BinaryMask produced by an operation of the pipeline
(threshold segmentation, largest-component selection, inversion,
hole-closing, the stage-1 coarse mask, and the final periosteal mask) takes
only the two values `IN_VALUE` and `OUT_VALUE`, and `OUT_VALUE` is fixed at
0. -/
theorem C1_two_value_invariant (cfg : AutocontourKnee) {d : Dims}
    (G : GaussFn d) (img m : Vol d) (sigma : Rat) (support lower upper : Int)
    (r : Nat) :
    cfg.out_value = 0 ∧
    twoValued cfg (gaussian_and_threshold cfg G img sigma support lower upper) ∧
    twoValued cfg (get_largest_connected_component cfg m) ∧
    twoValued cfg (invert_binary_image cfg m) ∧
    twoValued cfg (close_with_connected_components cfg m r) ∧
    twoValued cfg (peri_stage1 cfg G img) ∧
    twoValued cfg (get_periosteal_mask cfg G img) := by
  refine ⟨rfl, twoValued_threshold cfg _ lower upper, twoValued_largest cfg m,
    twoValued_invert cfg m, twoValued_close cfg m r, twoValued_invert cfg _,
    ?_⟩
  exact twoValued_maskOp cfg
    (twoValued_closing cfg (twoValued_scale_ite cfg _) _) _

/-- C2: the foreground of the final periosteal mask is contained in the
foreground of the stage-1 coarse mask `s1`, because the last operation of
`get_periosteal_mask` masks the result by `s1`. -/
theorem C2_fusion_bound (cfg : AutocontourKnee) {d : Dims} (G : GaussFn d)
    (img : Vol d) :
    fgSet (get_periosteal_mask cfg G img) ⊆ fgSet (peri_stage1 cfg G img) :=
  fgSet_maskOp_subset _ _

/-- C5: on a mask with zero foreground voxels,
`_get_largest_connected_component` returns the all-`OUT_VALUE` mask; the
function is total, so no error is raised. -/
theorem C5_empty_mask (cfg : AutocontourKnee) {d : Dims} (m : Vol d)
    (h : fgSet m = ∅) :
    get_largest_connected_component cfg m = fun _ => cfg.out_value := by
  funext p
  unfold get_largest_connected_component AutocontourKnee.out_value
  rw [h, largestComponentSet_of_empty (by simp)]
  simp

/-- Witness for C5 at the all-background volume on the 2 x 2 x 1 grid. -/
theorem C5_empty_mask_witness :
    fgSet mEmpty = ∅ ∧
      get_largest_connected_component default_config mEmpty =
        fun _ => default_config.out_value :=
  ⟨by decide, C5_empty_mask default_config mEmpty (by decide)⟩

/-- C6: on masks satisfying the two-value invariant,
`_invert_binary_image` is an involution. -/
theorem C6_invert_involution (cfg : AutocontourKnee) {d : Dims} (m : Vol d)
    (hm : twoValued cfg m) :
    invert_binary_image cfg (invert_binary_image cfg m) = m := by
  funext p
  unfold invert_binary_image
  rcases hm p with h | h
  · rw [h, if_neg (show ¬cfg.in_value ≠ cfg.in_value from fun hh => hh rfl),
      mul_zero]
    by_cases hin : cfg.in_value = 0
    · simp [hin]
    · rw [if_pos (Ne.symm hin), mul_one]
  · rw [h]
    by_cases hin : cfg.in_value = 0
    · simp [hin]
    · rw [if_pos (Ne.symm hin), mul_one,
        if_neg (show ¬cfg.in_value ≠ cfg.in_value from fun hh => hh rfl),
        mul_zero]

/-- Witness for C6 at a concrete two-valued mask. -/
theorem C6_invert_involution_witness :
    twoValued default_config mPair ∧
      invert_binary_image default_config
        (invert_binary_image default_config mPair) = mPair :=
  ⟨by decide, C6_invert_involution default_config mPair (by decide)⟩

/-- C7 counterexample: constructing a configuration whose stage-1 band has
`lower1 = 500 > 400 = upper1` succeeds and records the parameters verbatim;
`__init__` performs no validation and the program defines no
`InvalidParameterError`, contradicting the claim that construction fails. -/
theorem C7_counterexample :
    (400 : Int) < 500 ∧
    (cfgBand 500 400).peri_s1_lower = 500 ∧
    (cfgBand 500 400).peri_s1_upper = 400 :=
  ⟨by decide, rfl, rfl⟩

/-- C7 (amended): no parameter validation exists.  Construction with
`lower1 > upper1` succeeds and stores the band as given, and
`_gaussian_and_threshold` likewise proceeds without failure on the inverted
band: under the binarization contract, the empty band yields an
all-`OUT_VALUE` mask. -/
theorem C7_no_validation (lo hi : Int) (h : hi < lo) :
    (cfgBand lo hi).peri_s1_lower = lo ∧
    (cfgBand lo hi).peri_s1_upper = hi ∧
    ∀ {d : Dims} (G : GaussFn d) (img : Vol d) (p : Pos d),
      gaussian_and_threshold (cfgBand lo hi) G img
        (cfgBand lo hi).peri_s1_sigma (cfgBand lo hi).peri_s1_support
        lo hi p = (cfgBand lo hi).out_value := by
  refine ⟨rfl, rfl, ?_⟩
  intro d G img p
  unfold gaussian_and_threshold binaryThreshold
  rw [if_neg]
  rintro ⟨h1, h2⟩
  omega

/-- Witness for C7 (amended) at the concrete inverted band 500 > 400. -/
theorem C7_no_validation_witness :
    (400 : Int) < 500 ∧
    ((cfgBand 500 400).peri_s1_lower = 500 ∧
     (cfgBand 500 400).peri_s1_upper = 400 ∧
     ∀ {d : Dims} (G : GaussFn d) (img : Vol d) (p : Pos d),
       gaussian_and_threshold (cfgBand 500 400) G img
         (cfgBand 500 400).peri_s1_sigma (cfgBand 500 400).peri_s1_support
         500 400 p = (cfgBand 500 400).out_value) :=
  ⟨by decide, C7_no_validation 500 400 (by decide)⟩

/-- C8 counterexample: on the constant volume with value 5, which violates
the two-value invariant, `_invert_binary_image` does not fail: it returns
the all-`IN_VALUE` mask.  The source performs no invariant check and
defines no `InvariantViolationError`. -/
theorem C8_counterexample :
    ¬twoValued default_config badV ∧
      invert_binary_image default_config badV = fun _ => (127 : Int) :=
  ⟨by decide, funext fun _ => rfl⟩

/-- C8 (amended): `_invert_binary_image` performs no invariant check and
never fails; on every input volume, valid or not, it returns a mask that
itself satisfies the two-value invariant (every voxel differing from
`IN_VALUE`, including invalid values, becomes `IN_VALUE`). -/
theorem C8_invert_total (cfg : AutocontourKnee) {d : Dims} (v : Vol d) :
    twoValued cfg (invert_binary_image cfg v) ∧
    ∀ p, v p ≠ cfg.in_value → invert_binary_image cfg v p = cfg.in_value := by
  refine ⟨twoValued_invert cfg v, ?_⟩
  intro p hp
  unfold invert_binary_image
  rw [if_pos hp, mul_one]

/-- C9: the stage-3 re-mask of the original volume (source line 409) has no
effect on the result: the variant of `get_periosteal_mask` that omits it
returns the same mask on every input. -/
theorem C9_stage3_remask_irrelevant (cfg : AutocontourKnee) {d : Dims}
    (G : GaussFn d) (img : Vol d) :
    get_periosteal_mask_no_stage3_remask cfg G img =
      get_periosteal_mask cfg G img := rfl

/-- C10: the unimplemented methods `get_endosteal_mask` and `get_masks`
return Python's `None` (their bodies are `pass`) and raise no error. -/
theorem C10_unimplemented_return_none (cfg : AutocontourKnee) {d : Dims}
    (img peri : Vol d) :
    get_endosteal_mask cfg img peri = none ∧ get_masks cfg img = none :=
  ⟨rfl, rfl⟩

theorem invert_val_of_eq (cfg : AutocontourKnee) {d : Dims} {v : Vol d}
    {p : Pos d} (h : v p = cfg.in_value) : invert_binary_image cfg v p = 0 := by
  unfold invert_binary_image
  rw [h, if_neg (show ¬cfg.in_value ≠ cfg.in_value from fun hh => hh rfl),
    mul_zero]

theorem invert_val_of_ne (cfg : AutocontourKnee) {d : Dims} {v : Vol d}
    {p : Pos d} (h : v p ≠ cfg.in_value) :
    invert_binary_image cfg v p = cfg.in_value := by
  unfold invert_binary_image
  rw [if_pos h, mul_one]

theorem largest_val_of_mem (cfg : AutocontourKnee) {d : Dims} {v : Vol d}
    {p : Pos d} (h : p ∈ largestComponentSet adj6 (fgSet v)) :
    get_largest_connected_component cfg v p = cfg.in_value := by
  unfold get_largest_connected_component
  rw [if_pos h, mul_one]

theorem largest_val_of_not_mem (cfg : AutocontourKnee) {d : Dims} {v : Vol d}
    {p : Pos d} (h : p ∉ largestComponentSet adj6 (fgSet v)) :
    get_largest_connected_component cfg v p = 0 := by
  unfold get_largest_connected_component
  rw [if_neg h, mul_zero]

theorem dilate_val_of_nbr (cfg : AutocontourKnee) {d : Dims} {v : Vol d}
    {p q : Pos d} (r : Nat) (hq : inBall r p q) (hv : v q = cfg.in_value) :
    binaryDilate cfg r v p = cfg.in_value := by
  unfold binaryDilate
  rw [if_pos ⟨q, hq, hv⟩]

theorem erode_val_of_all (cfg : AutocontourKnee) {d : Dims} {v : Vol d}
    {p : Pos d} (r : Nat) (hp : v p = cfg.in_value)
    (hall : ∀ q, inBall r p q → v q = cfg.in_value) :
    binaryErode cfg r v p = cfg.in_value := by
  unfold binaryErode
  rw [if_neg]
  · exact hp
  · rintro ⟨_, q, hq, hne⟩
    exact hne (hall q hq)

/-- C3: `_close_with_connected_components` (dilate, invert, largest
background component, invert, erode) never removes existing foreground: the
foreground of the result contains the foreground of the input, for every
two-valued mask and positive radius. -/
theorem C3_hole_closing_containment (cfg : AutocontourKnee) {d : Dims}
    (m : Vol d) (r : Nat) (hm : twoValued cfg m) (_hr : 0 < r) :
    fgSet m ⊆ fgSet (close_with_connected_components cfg m r) := by
  intro p hp
  rw [mem_fgSet] at hp ⊢
  have hpin : m p = cfg.in_value := (hm p).resolve_right hp
  have hin0 : cfg.in_value ≠ 0 := fun h0 => hp (hpin.trans h0)
  -- every ball neighbour of p is foreground after dilation, hence background
  -- after inversion, hence outside the selected background component, hence
  -- foreground again after the second inversion
  have hI2 : ∀ q, inBall r p q →
      invert_binary_image cfg (get_largest_connected_component cfg
        (invert_binary_image cfg (binaryDilate cfg r m))) q = cfg.in_value := by
    intro q hq
    apply invert_val_of_ne
    have hL : get_largest_connected_component cfg
        (invert_binary_image cfg (binaryDilate cfg r m)) q = 0 := by
      apply largest_val_of_not_mem
      intro hmem
      have hqf := largestComponentSet_subset _ hmem
      rw [mem_fgSet] at hqf
      exact hqf (invert_val_of_eq cfg
        (dilate_val_of_nbr cfg r (inBall_symm hq) hpin))
    rw [hL]
    exact Ne.symm hin0
  have hfinal : close_with_connected_components cfg m r p = cfg.in_value := by
    show binaryErode cfg r (invert_binary_image cfg
      (get_largest_connected_component cfg
        (invert_binary_image cfg (binaryDilate cfg r m)))) p = cfg.in_value
    exact erode_val_of_all cfg r (hI2 p (inBall_refl r p)) hI2
  rw [hfinal]
  exact hin0

/-- Witness for C3 at a concrete single-voxel mask and radius 1. -/
theorem C3_hole_closing_containment_witness :
    twoValued default_config mSingle ∧ 0 < 1 ∧
      fgSet mSingle ⊆
        fgSet (close_with_connected_components default_config mSingle 1) :=
  ⟨by decide, by decide,
    C3_hole_closing_containment default_config mSingle 1 (by decide) (by decide)⟩

/-- C4 counterexample: the claim as stated, with 26-connected components, is
false.  On the mask whose foreground is the two diagonal voxels (0,0,0) and
(1,1,0) of a 2 x 2 x 1 grid (one single 26-connected component),
`_get_largest_connected_component` keeps a single voxel, because
`sitk.ConnectedComponent` is called with its default `fullyConnected=False`
(face connectivity); the result's foreground is not a 26-connected component
of the input. -/
theorem C4_counterexample :
    twoValued default_config mDiag ∧ (fgSet mDiag).Nonempty ∧
      ¬∃ p ∈ fgSet mDiag,
        fgSet (get_largest_connected_component default_config mDiag) =
          componentOf adj26 (fgSet mDiag) p := by decide

/-- C4 (amended): for every two-valued mask with non-empty foreground,
`_get_largest_connected_component` returns a mask whose foreground is
exactly one 6-connected (face-adjacency) component of the input, relabeled
to `IN_VALUE`, whose voxel count is at least that of every other 6-connected
component; and the result contains at most one 6-connected component.  (The
code uses face connectivity, not the 26-connectivity stated in the
specification.) -/
theorem C4_largest_component (cfg : AutocontourKnee) {d : Dims} (m : Vol d)
    (hm : twoValued cfg m) :
    ((fgSet m).Nonempty →
      ∃ p ∈ fgSet m,
        fgSet (get_largest_connected_component cfg m) =
            componentOf adj6 (fgSet m) p ∧
          (∀ q ∈ fgSet m, (componentOf adj6 (fgSet m) q).card ≤
            (fgSet (get_largest_connected_component cfg m)).card) ∧
          ∀ x ∈ fgSet (get_largest_connected_component cfg m),
            get_largest_connected_component cfg m x = cfg.in_value) ∧
    (comps adj6 (fgSet (get_largest_connected_component cfg m))).card ≤ 1 := by
  constructor
  · intro hne
    obtain ⟨p0, hp0⟩ := hne
    have hm0 : m p0 = cfg.in_value := (hm p0).resolve_right (mem_fgSet.mp hp0)
    have hin0 : cfg.in_value ≠ 0 := fun h0 => (mem_fgSet.mp hp0) (hm0.trans h0)
    have hfg := fgSet_largest_of_ne cfg m hin0
    obtain ⟨p, hpF, heq, hmax⟩ := largestComponentSet_spec (A := adj6) ⟨p0, hp0⟩
    refine ⟨p, hpF, ?_, ?_, ?_⟩
    · rw [hfg, heq]
    · intro q hq
      rw [hfg, heq]
      exact hmax q hq
    · intro x hx
      rw [hfg] at hx
      exact largest_val_of_mem cfg hx
  · by_cases hin0 : cfg.in_value = 0
    · have hempty : fgSet (get_largest_connected_component cfg m) = ∅ := by
        ext x
        simp [mem_fgSet, get_largest_connected_component, hin0]
      rw [hempty, comps_empty]
      simp
    · rw [fgSet_largest_of_ne cfg m hin0]
      by_cases hne : (fgSet m).Nonempty
      · obtain ⟨p, _, heq, _⟩ := largestComponentSet_spec (A := adj6) hne
        rw [heq]
        exact comps_componentOf_card_le_one adj6_symm (fgSet m) p
      · rw [largestComponentSet_of_empty hne, comps_empty]
        simp

/-- Witness for C4 (amended) at a concrete two-voxel mask. -/
theorem C4_largest_component_witness :
    twoValued default_config mPair ∧
      (((fgSet mPair).Nonempty →
        ∃ p ∈ fgSet mPair,
          fgSet (get_largest_connected_component default_config mPair) =
              componentOf adj6 (fgSet mPair) p ∧
            (∀ q ∈ fgSet mPair, (componentOf adj6 (fgSet mPair) q).card ≤
              (fgSet (get_largest_connected_component default_config mPair)).card) ∧
            ∀ x ∈ fgSet (get_largest_connected_component default_config mPair),
              get_largest_connected_component default_config mPair x =
                default_config.in_value) ∧
      (comps adj6
        (fgSet (get_largest_connected_component default_config mPair))).card ≤ 1) :=
  ⟨by decide, C4_largest_component default_config mPair (by decide)⟩
